import Mathlib

/-!
Verification of the `cmdr` repository (Go): a shallow embedding in Lean 4 of
its template renderer (`Render` / `optional`), its glob-token scanner
(regexp `[\w.-]*\*[\w.-]*` via `FindAllString`), its placeholder matcher
(regexp `{{[A-Z]+}}` via `MatchString`), its session counter (`nextID`), and
its process runner (`Runner` / `Run`).  External collaborators (the process
environment used by `os.ExpandEnv`, the filesystem consulted by
`filepath.Glob`, and the operating-system process primitives) are modelled
as explicit parameters, mirroring the repository's own interface boundary.

Strings are modelled as `List Char`; every definition follows the Go source
line by line.
-/

namespace Cmdr

/-- Strings are lists of characters. -/
abbrev Str := List Char

/-! ## The placeholder matcher: Go regexp `{{[A-Z]+}}`, used via `pmatch.MatchString` -/

/-- Uppercase ASCII letter, the character class `[A-Z]`. -/
def isUpperA (c : Char) : Bool := 'A' ≤ c && c ≤ 'Z'

/-- Split off the longest leading run of uppercase ASCII letters. -/
def upSpan : Str → Str × Str
  | [] => ([], [])
  | c :: rest =>
    if isUpperA c then
      let p := upSpan rest
      (c :: p.1, p.2)
    else ([], c :: rest)

/-- Does `{{[A-Z]+}}` match at the very start of the text?  Since `}` is not
an uppercase letter, the regular expression matches at a position iff `{{` is
followed by a nonempty maximal uppercase run followed by `}}`. -/
def placeAt : Str → Bool
  | '{' :: '{' :: rest =>
    let p := upSpan rest
    decide (p.1 ≠ []) &&
      (match p.2 with
       | '}' :: '}' :: _ => true
       | _ => false)
  | _ => false

/-- `pmatch.MatchString`: does `{{[A-Z]+}}` match anywhere in the text? -/
def hasPlaceholder : Str → Bool
  | [] => false
  | c :: rest => placeAt (c :: rest) || hasPlaceholder rest

/-- The literal placeholder text `{{NAME}}` built from a name. -/
def phl (n : Str) : Str := '{' :: '{' :: (n ++ '}' :: '}' :: [])

/-! ## `strings.Index` for a single-character needle -/

/-- Index of the first occurrence of a character, `strings.Index(text, c)`
(`none` models the return value `-1`). -/
def idxOf (c : Char) : Str → Option Nat
  | [] => none
  | x :: xs => if x = c then some 0 else (idxOf c xs).map (· + 1)

theorem idxOf_lt_length {c : Char} {s : Str} {i : Nat} (h : idxOf c s = some i) :
    i < s.length := by
  induction s generalizing i with
  | nil => simp [idxOf] at h
  | cons x xs ih =>
    simp only [idxOf] at h
    split at h
    · cases h
      simp
    · cases hr : idxOf c xs with
      | none => rw [hr] at h; simp at h
      | some j =>
        rw [hr] at h
        have hj : j + 1 = i := by simpa using h
        have := ih hr
        simp only [List.length_cons]
        omega

/-! ## `strings.Replace(s, old, new, -1)` -/

/-- Is the first list a prefix of the second? -/
def isPre : Str → Str → Bool
  | [], _ => true
  | _ :: _, [] => false
  | a :: xs, b :: ys => a = b && isPre xs ys

/-- The scanning loop of `strings.Replace` with count `-1`: at each position,
if `old` is a prefix, emit `new` and skip past the occurrence, else keep the
character.  (Callers in this repository always pass a nonempty `old`.) -/
def raGo (old new : Str) : Str → Str
  | [] => []
  | c :: rest =>
    if isPre old (c :: rest) then new ++ raGo old new (rest.drop (old.length - 1))
    else c :: raGo old new rest
termination_by s => s.length
decreasing_by
  · simp only [List.length_cons, List.length_drop]
    omega
  · simp only [List.length_cons]
    omega

/-- `strings.Replace(s, old, new, -1)`: replace every non-overlapping
occurrence of `old` by `new`, scanning left to right.  For an empty `old`,
Go inserts `new` before every character and after the last one. -/
def replaceAll (s old new : Str) : Str :=
  if old = [] then new ++ s.foldr (fun c acc => c :: (new ++ acc)) []
  else raGo old new s

/-! ## The glob-token scanner: Go regexp `[\w.-]*\*[\w.-]*` via `FindAllString` -/

/-- The character class `[\w.-]` (ASCII word characters, dot, hyphen). -/
def isWordC (c : Char) : Bool := c.isAlpha || c.isDigit || c = '_' || c = '.' || c = '-'

/-- Split off the longest leading run of `[\w.-]` characters. -/
def wordSpan : Str → Str × Str
  | [] => ([], [])
  | c :: rest =>
    if isWordC c then
      let p := wordSpan rest
      (c :: p.1, p.2)
    else ([], c :: rest)

theorem wordSpan_snd_len (s : Str) : (wordSpan s).2.length ≤ s.length := by
  induction s with
  | nil => simp [wordSpan]
  | cons c rest ih =>
    simp only [wordSpan]
    by_cases h : isWordC c = true
    · simp only [h, if_true]
      exact Nat.le_succ_of_le ih
    · simp [h]

/-- The scanner underlying `globs.FindAllString(text, -1)`.  `run` is the
(reversed) run of `[\w.-]` characters read since the last token or non-word
character; each `*` anchors a token consisting of the word run before it,
the `*`, and the word run after it, after which scanning resumes. -/
def fgt (run : Str) : Str → List Str
  | [] => []
  | c :: rest =>
    if c = '*' then
      let p := wordSpan rest
      (run.reverse ++ '*' :: p.1) :: fgt [] p.2
    else if isWordC c then fgt (c :: run) rest
    else fgt [] rest
termination_by s => s.length
decreasing_by
  · simp only [List.length_cons]
    exact Nat.lt_succ_of_le (wordSpan_snd_len rest)
  · simp only [List.length_cons]
    omega
  · simp only [List.length_cons]
    omega

/-- `globs.FindAllString(text, -1)`: all glob tokens, left to right. -/
def findGlobTokens (s : Str) : List Str := fgt [] s

/-- How `fgt`'s accumulator evolves over a star-free stretch of text. -/
def runAcc (run : Str) : Str → Str
  | [] => run
  | c :: x' => runAcc (if isWordC c then c :: run else []) x'

/-- `strings.Join(files, " ")`. -/
def joinSpace : List Str → Str
  | [] => []
  | [f] => f
  | f :: g :: fs => f ++ ' ' :: joinSpace (g :: fs)

/-! ## The renderer: `optional` and `Render` -/

/-- The error values of the package (`cmdr.Err*`). -/
inductive RErr
  /-- `ErrSyntaxError`: invalid command syntax. -/
  | syn
  /-- `ErrIncomplete`: missing required parameter. -/
  | incomplete
  /-- `ErrNoSuchFile`: no such file or directory. -/
  | nofile
  /-- an error propagated from `filepath.Glob` itself. -/
  | badpat
deriving DecidableEq

/-- The bracket-resolution loop at the top of `optional`: find the first
`[` and the first `]`; a missing or earlier `]` is a syntax error; otherwise
delete the whole fragment when a `{{[A-Z]+}}` placeholder remains anywhere
in the text, else drop just the two brackets; repeat. -/
def optionalLoop (s : Str) : Str × Option RErr :=
  match h1 : idxOf '[' s with
  | none => (s, none)
  | some st =>
    match h2 : idxOf ']' s with
    | none => (s, some .syn)
    | some en =>
      if h3 : en < st then (s, some .syn)
      else if hasPlaceholder s then
        optionalLoop (s.take st ++ s.drop (en + 1))
      else
        optionalLoop (s.take st ++ ((s.take en).drop (st + 1)) ++ s.drop (en + 1))
termination_by s.length
decreasing_by
  · have hst := idxOf_lt_length h1
    simp only [List.length_append, List.length_take, List.length_drop]
    omega
  · have hst := idxOf_lt_length h1
    simp only [List.length_append, List.length_take, List.length_drop]
    omega

/-- The tail of `optional` after the completeness check: `os.ExpandEnv` has
already been applied; walk the precomputed glob-token list, resolving each
token against the filesystem (`fs g = none` models a `filepath.Glob` error,
`some []` an empty match set) and splicing in the space-joined matches. -/
def globGo (fs : Str → Option (List Str)) : List Str → Str → Str × Option RErr
  | [], t => (t, none)
  | g :: gs, t =>
    match fs g with
    | none => (t, some .badpat)
    | some [] => (t, some .nofile)
    | some (f :: fsl) => globGo fs gs (replaceAll t g (joinSpace (f :: fsl)))

/-- `optional(text)`: bracket resolution, completeness check, environment
expansion (the abstract collaborator `env`), then glob expansion (against
the abstract filesystem `fs`). -/
def optional (env : Str → Str) (fs : Str → Option (List Str)) (s : Str) :
    Str × Option RErr :=
  match optionalLoop s with
  | (t, some e) => (t, some e)
  | (t, none) =>
    if hasPlaceholder t then (t, some .incomplete)
    else
      let u := env t
      globGo fs (findGlobTokens u) u

/-- `cmdr.Param`: a (name, value) pair; an empty name means bare append. -/
structure Param where
  name : Str
  value : Str
deriving DecidableEq

/-- `cmdr.Command`. -/
structure Command where
  path : Str
  params : Str
  dir : Str := []
  user : Str := []
  async : Bool := false
deriving DecidableEq

/-- One iteration of the parameter loop in `Command.Render`. -/
def subst1 (text : Str) (p : Param) : Str :=
  if p.name ≠ [] then replaceAll text (phl p.name) p.value
  else text ++ ' ' :: p.value

/-- The parameter loop of `Command.Render`: named substitution or bare
append, in supplied order. -/
def renderText (text : Str) (ps : List Param) : Str := ps.foldl subst1 text

/-- `Command.Render`: substitute the parameters, then run `optional`. -/
def render (env : Str → Str) (fs : Str → Option (List Str))
    (c : Command) (ps : List Param) : Str × Option RErr :=
  optional env fs (renderText c.params ps)

/-! ## The session counter `nextID`

`nextID` increments the shared `sessionID` under the mutex but reads the
value it returns *after* `mtx.Unlock()`.  Each call is therefore two
distinct atomic events: the locked increment and the unlocked read.  A
concurrent execution of `n` calls is an interleaving of the per-call event
sequences; the mutex serialises the increments but imposes nothing between
one call's increment and its read. -/

/-- One atomic event of a `nextID` call by thread `t`. -/
inductive Ev
  /-- `mtx.Lock(); sessionID++; mtx.Unlock()` -/
  | inc (t : Nat)
  /-- `return sessionID` — the unlocked read -/
  | read (t : Nat)
deriving DecidableEq

/-- The thread an event belongs to. -/
def evThread : Ev → Nat
  | .inc t => t
  | .read t => t

/-- The program order of a single `nextID` call: increment, then read. -/
def threadProg (t : Nat) : List Ev := [.inc t, .read t]

/-- A schedule is a valid interleaving of `n` concurrent `nextID` calls:
every event belongs to one of the `n` threads, and each thread's events
occur in its program order. -/
def validSched (n : Nat) (s : List Ev) : Prop :=
  (∀ e ∈ s, evThread e < n) ∧
    ∀ t < n, s.filter (fun e => evThread e = t) = threadProg t

instance (n : Nat) (s : List Ev) : Decidable (validSched n s) := by
  unfold validSched
  infer_instance

/-- Run a schedule over the shared counter (initially `c`), collecting for
each `read t` the pair (thread, value returned to that call). -/
def runSched (c : Nat) : List Ev → List (Nat × Nat)
  | [] => []
  | .inc _ :: rest => runSched (c + 1) rest
  | .read t :: rest => (t, c) :: runSched c rest

/-! ## The process runner `Runner` / `Run`

The operating-system collaborators of a single invocation (path lookup,
pipe creation, caller uid, user lookup, uid parse, process spawn, wait
status, pipe drains, clock readings) are modelled as one oracle record;
`runner` replays `Runner`'s control flow against it and records every
value sent on the result channel (the deferred send that fires when
`Runner` returns, plus `finisher`'s own send in asynchronous mode). -/

/-- The data `p.Wait()` yields: pid, exit status and user CPU time. -/
structure WaitRes where
  pid : Int
  rc : Int
  utime : Nat
deriving DecidableEq

/-- The oracle for one invocation's external calls. -/
structure OSEnv where
  /-- `exec.LookPath`: resolved path, or `none` for an error. -/
  lookPath : Str → Option Str
  /-- `os.ExpandEnv`, passed through to the renderer. -/
  envExpand : Str → Str
  /-- `filepath.Glob`, passed through to the renderer. -/
  fsGlob : Str → Option (List Str)
  /-- success of the two `os.Pipe()` calls. -/
  pipesOk : Bool × Bool
  /-- `os.Getuid()`. -/
  uid : Nat
  /-- `user.Lookup(name)`: the `Uid` string of the user, or `none`. -/
  lookupUser : Str → Option Str
  /-- `strconv.ParseUint(uid, 0, 32)`: the numeric uid, or `none`. -/
  parseUid : Str → Option Nat
  /-- the value `nextID()` returns to this invocation. -/
  nextSid : Int
  /-- success of `os.StartProcess`. -/
  startOk : Bool
  /-- the wait status (the source never checks `Wait`'s error). -/
  waitRes : WaitRes
  /-- draining the stdout pipe: the text, or `none` for a read error. -/
  readOut : Option Str
  /-- draining the stderr pipe: the text, or `none` for a read error. -/
  readErr : Option Str
  /-- `time.Now()` at start and at finish. -/
  tStart : Nat
  tFinish : Nat

/-- The errors `Runner` can return. -/
inductive RunErr
  | lookPathE
  | renderE (e : RErr)
  | pipeE
  | mustBeRoot
  | userLookupE
  | parseUidE
  | startE
  | readE
deriving DecidableEq

/-- `cmdr.Runtime`, the invocation result record. -/
structure Runtime where
  sid : Int := 0
  pid : Int := 0
  rc : Int := 0
  cmd : Str := []
  stdout : Str := []
  stderr : Str := []
  utime : Nat := 0
  started : Nat := 0
  finished : Nat := 0
deriving DecidableEq

/-- Everything observable about one `Runner` invocation: the values sent on
the result channel over the whole lifetime (in order), the error returned
by `Runner` itself, and the argument vector handed to `os.StartProcess`
(`none` when no process was spawned). -/
structure RunnerOut where
  sends : List Runtime
  ret : Option RunErr
  argv : Option (List Str)
deriving DecidableEq

/-- Is this an ASCII whitespace character (`unicode.IsSpace` restricted to
ASCII, as used by `strings.Fields`)? -/
def isSpaceC (c : Char) : Bool :=
  c = ' ' || c = '\t' || c = '\n' || c = '\r' || c = '\x0b' || c = '\x0c'

/-- `strings.Fields`: split on runs of whitespace, dropping empty fields.
`cur` is the (reversed) field being accumulated. -/
def gfGo (cur : Str) : Str → List Str
  | [] => if cur = [] then [] else [cur.reverse]
  | c :: rest =>
    if isSpaceC c then
      if cur = [] then gfGo [] rest else cur.reverse :: gfGo [] rest
    else gfGo (c :: cur) rest

/-- `strings.Fields(s)`. -/
def goFields (s : Str) : List Str := gfGo [] s

/-- The `finisher` closure: wait, stamp the finish time, drain both pipes
(returning early on a read error), fill in pid / exit status / CPU time,
and — only in asynchronous mode — send the completed record on the
channel.  Returns the final record, `finisher`'s error, and its sends. -/
def finisher (os : OSEnv) (async : Bool) (r : Runtime) :
    Runtime × Option RunErr × List Runtime :=
  let r1 := { r with finished := os.tFinish }
  match os.readOut with
  | none => (r1, some .readE, [])
  | some out =>
    let r2 := { r1 with stdout := out }
    match os.readErr with
    | none => (r2, some .readE, [])
    | some errS =>
      let r3 := { r2 with stderr := errS, pid := os.waitRes.pid,
                          rc := os.waitRes.rc, utime := os.waitRes.utime }
      (r3, none, if async then [r3] else [])

/-- The phase of `Runner` after the user-impersonation block: issue the
session id, spawn the process with `strings.Fields(r.Cmd)` as the argument
vector, and run `finisher` synchronously or hand it to a goroutine.  The
deferred `rt <- r` fires when `Runner` returns: in synchronous mode that is
after `finisher` completed (so it sends the final record), in asynchronous
mode it fires immediately with the partial record, and `finisher`'s own
send follows. -/
def runnerSpawn (os : OSEnv) (async : Bool) (r1 : Runtime) : RunnerOut :=
  let r2 := { r1 with sid := os.nextSid }
  let argv := goFields r2.cmd
  if os.startOk then
    let r3 := { r2 with started := os.tStart }
    if async then
      let f := finisher os true r3
      { sends := r3 :: f.2.2, ret := none, argv := some argv }
    else
      let f := finisher os false r3
      { sends := [f.1], ret := f.2.1, argv := some argv }
  else
    { sends := [r2], ret := some .startE, argv := none }

/-- `Command.Runner`: path lookup, rendering, command-line assembly, pipe
creation, the user-impersonation checks, then `runnerSpawn`.  Every early
return still performs the deferred channel send of the record as populated
so far. -/
def runner (os : OSEnv) (c : Command) (ps : List Param) : RunnerOut :=
  let r0 : Runtime := {}
  match os.lookPath c.path with
  | none => { sends := [r0], ret := some .lookPathE, argv := none }
  | some path =>
    match render os.envExpand os.fsGlob c ps with
    | (_, some e) => { sends := [r0], ret := some (.renderE e), argv := none }
    | (text, none) =>
      let r1 := { r0 with cmd := if text ≠ [] then path ++ ' ' :: text else path }
      if os.pipesOk.1 = false then { sends := [r1], ret := some .pipeE, argv := none }
      else if os.pipesOk.2 = false then { sends := [r1], ret := some .pipeE, argv := none }
      else if c.user ≠ [] then
        if os.uid ≠ 0 then { sends := [r1], ret := some .mustBeRoot, argv := none }
        else
          match os.lookupUser c.user with
          | none => { sends := [r1], ret := some .userLookupE, argv := none }
          | some uidStr =>
            match os.parseUid uidStr with
            | none => { sends := [r1], ret := some .parseUidE, argv := none }
            | some _ => runnerSpawn os c.async r1
      else runnerSpawn os c.async r1

/-- `Command.Run`: synchronous invocation through a capacity-1 channel;
the caller receives the first value delivered, alongside `Runner`'s error. -/
def run (os : OSEnv) (c : Command) (ps : List Param) :
    Option Runtime × Option RunErr :=
  let o := runner os c ps
  (o.sends.head?, o.ret)

/-- `Command.RunAsync`: force asynchronous mode, then `Runner`. -/
def runAsync (os : OSEnv) (c : Command) (ps : List Param) : RunnerOut :=
  runner os { c with async := true } ps

/-! ## Concrete fixtures, mirroring the repository's test data -/

/-- An identity environment: no `$NAME` references get substituted. -/
def envId : Str → Str := fun s => s

/-- A filesystem oracle on which every glob pattern errors; usable whenever
the rendered text contains no glob token. -/
def fsNone : Str → Option (List Str) := fun _ => none

/-- A filesystem containing exactly `a.go` and `b.go`, matching `*.go`. -/
def fsGo : Str → Option (List Str) := fun g =>
  if g = '*' :: ['.', 'g', 'o'] then some [['a', '.', 'g', 'o'], ['b', '.', 'g', 'o']]
  else none

/-- An oracle for an invocation in which every external step succeeds and
the child exits with status 23 (the test suite's `./failure` script). -/
def osOk : OSEnv :=
  { lookPath := fun _ => some ['/', 'b', 'i', 'n', '/', 'l', 's']
    envExpand := fun s => s
    fsGlob := fun _ => none
    pipesOk := (true, true)
    uid := 1000
    lookupUser := fun _ => none
    parseUid := fun _ => none
    nextSid := 7
    startOk := true
    waitRes := { pid := 4242, rc := 23, utime := 5 }
    readOut := some []
    readErr := some ['r', 'o', 'c', 'k']
    tStart := 100
    tFinish := 200 }

/-- A parameterless command in asynchronous mode. -/
def lsAsync : Command := { path := ['l', 's'], params := [], async := true }

/-- A parameterless command in synchronous mode. -/
def lsSync : Command := { path := ['l', 's'], params := [] }

/-- A command whose template is the single placeholder `{{X}}`. -/
def echoX : Command := { path := ['e', 'c'], params := phl ['X'] }

/-- Test command 125: template `-l {{WHAT}} [{{EVER}}]`. -/
def cmd125 : Command :=
  { path := ['/', 'b', 'i', 'n', '/', 'l', 's']
    params := ['-', 'l', ' '] ++ phl ['W', 'H', 'A', 'T'] ++ [' ', '['] ++
      phl ['E', 'V', 'E', 'R'] ++ [']'] }

/-! ## Library lemmas about the embedded primitives -/

theorem idxOf_eq_none_of_not_mem {c : Char} {s : Str} (h : c ∉ s) : idxOf c s = none := by
  induction s with
  | nil => rfl
  | cons x xs ih =>
    simp only [List.mem_cons, not_or] at h
    simp only [idxOf, ih h.2, Option.map_none]
    exact if_neg fun hx => h.1 hx.symm

theorem idxOf_first (c : Char) (a l : Str) (h : c ∉ a) : idxOf c (a ++ c :: l) = some a.length := by
  induction a with
  | nil => simp [idxOf]
  | cons x xs ih =>
    simp only [List.mem_cons, not_or] at h
    have hxc : ¬ x = c := fun hx => h.1 hx.symm
    simp [idxOf, hxc, ih h.2]

theorem optionalLoop_none {s : Str} (h : idxOf '[' s = none) : optionalLoop s = (s, none) := by
  rw [optionalLoop.eq_def, h]

theorem optionalLoop_syn_noclose {s : Str} {st : Nat} (h1 : idxOf '[' s = some st)
    (h2 : idxOf ']' s = none) : optionalLoop s = (s, some RErr.syn) := by
  rw [optionalLoop.eq_def, h1, h2]

theorem optionalLoop_syn_before {s : Str} {st en : Nat} (h1 : idxOf '[' s = some st)
    (h2 : idxOf ']' s = some en) (hlt : en < st) : optionalLoop s = (s, some RErr.syn) := by
  rw [optionalLoop.eq_def, h1, h2]
  simp [hlt]

theorem optionalLoop_del {s : Str} {st en : Nat} (h1 : idxOf '[' s = some st)
    (h2 : idxOf ']' s = some en) (hle : st ≤ en) (hp : hasPlaceholder s = true) :
    optionalLoop s = optionalLoop (s.take st ++ s.drop (en + 1)) := by
  conv_lhs => rw [optionalLoop.eq_def]
  rw [h1, h2]
  simp [Nat.not_lt.mpr hle, hp]

theorem optionalLoop_keep {s : Str} {st en : Nat} (h1 : idxOf '[' s = some st)
    (h2 : idxOf ']' s = some en) (hle : st ≤ en) (hp : hasPlaceholder s = false) :
    optionalLoop s =
      optionalLoop (s.take st ++ ((s.take en).drop (st + 1)) ++ s.drop (en + 1)) := by
  conv_lhs => rw [optionalLoop.eq_def]
  rw [h1, h2]
  simp [Nat.not_lt.mpr hle, hp]

/-- Where the leftmost `[` and leftmost `]` of a decomposed text sit, and
what one iteration of the bracket loop does to it: the fragment is deleted
whole when a placeholder remains anywhere in the text, otherwise only the
two brackets are dropped. -/
theorem optionalLoop_step (a b c : Str) (ha1 : '[' ∉ a) (ha2 : ']' ∉ a) (hb : ']' ∉ b) :
    optionalLoop (a ++ '[' :: b ++ ']' :: c) =
      optionalLoop
        (if hasPlaceholder (a ++ '[' :: b ++ ']' :: c) then a ++ c else a ++ b ++ c) := by
  have hassoc : a ++ '[' :: b ++ ']' :: c = a ++ '[' :: (b ++ ']' :: c) := by simp
  have h1 : idxOf '[' (a ++ '[' :: b ++ ']' :: c) = some a.length := by
    rw [hassoc]
    exact idxOf_first '[' a _ ha1
  have h2 : idxOf ']' (a ++ '[' :: b ++ ']' :: c) = some (a.length + b.length + 1) := by
    have hnotin : ']' ∉ a ++ '[' :: b := by
      simp only [List.mem_append, List.mem_cons, not_or]
      exact ⟨ha2, by simp, hb⟩
    rw [idxOf_first ']' (a ++ '[' :: b) c hnotin]
    congr 1
    simp only [List.length_append, List.length_cons]
    omega
  have hle : a.length ≤ a.length + b.length + 1 := by omega
  have htake : (a ++ '[' :: b ++ ']' :: c).take a.length = a := by
    rw [hassoc]
    exact List.take_left a _
  have hdrop : (a ++ '[' :: b ++ ']' :: c).drop (a.length + b.length + 1 + 1) = c := by
    have he : a ++ '[' :: b ++ ']' :: c = ((a ++ '[' :: b) ++ [']']) ++ c := by simp
    have hlen : ((a ++ '[' :: b) ++ [']']).length = a.length + b.length + 1 + 1 := by
      simp only [List.length_append, List.length_cons, List.length_nil]
      omega
    rw [he, ← hlen, List.drop_left]
  have hmid : ((a ++ '[' :: b ++ ']' :: c).take (a.length + b.length + 1)).drop
      (a.length + 1) = b := by
    have hlen : (a ++ '[' :: b).length = a.length + b.length + 1 := by
      simp only [List.length_append, List.length_cons]
      omega
    rw [← hlen, List.take_left]
    have he2 : a ++ '[' :: b = (a ++ ['[']) ++ b := by simp
    have hlen2 : (a ++ ['[']).length = a.length + 1 := by simp
    rw [he2, ← hlen2, List.drop_left]
  cases hp : hasPlaceholder (a ++ '[' :: b ++ ']' :: c) with
  | true =>
    rw [optionalLoop_del h1 h2 hle hp, htake, hdrop]
    simp
  | false =>
    rw [optionalLoop_keep h1 h2 hle hp, htake, hdrop, hmid]
    simp

/-! ## Characterizing the placeholder matcher -/

theorem hasPlaceholder_cons (c : Char) (rest : Str) :
    hasPlaceholder (c :: rest) = (placeAt (c :: rest) || hasPlaceholder rest) := rfl

theorem upSpan_spec (s : Str) :
    s = (upSpan s).1 ++ (upSpan s).2 ∧ ∀ ch ∈ (upSpan s).1, isUpperA ch = true := by
  induction s with
  | nil => simp [upSpan]
  | cons c rest ih =>
    by_cases hc : isUpperA c = true
    · simp only [upSpan, hc, if_true]
      refine ⟨?_, ?_⟩
      · conv_lhs => rw [ih.1]
        simp
      · intro ch hch
        rcases List.mem_cons.mp hch with h | h
        · rw [h]; exact hc
        · exact ih.2 ch h
    · simp [upSpan, hc]

theorem upSpan_append_all {u v : Str} (hu : ∀ ch ∈ u, isUpperA ch = true)
    (hv : ∀ d, v.head? = some d → isUpperA d = false) : upSpan (u ++ v) = (u, v) := by
  induction u with
  | nil =>
    cases v with
    | nil => simp [upSpan]
    | cons d v' => simp [upSpan, hv d rfl]
  | cons c u' ih =>
    have hc : isUpperA c = true := hu c (by simp)
    have ih' := ih fun ch hch => hu ch (by simp [hch])
    simp [upSpan, hc, ih']

theorem placeAt_phl {n b : Str} (hn : n ≠ []) (hup : ∀ ch ∈ n, isUpperA ch = true) :
    placeAt ('{' :: '{' :: (n ++ '}' :: '}' :: b)) = true := by
  have hsp : upSpan (n ++ '}' :: '}' :: b) = (n, '}' :: '}' :: b) :=
    upSpan_append_all hup (fun d hd => by cases hd; rfl)
  simp [placeAt, hsp, hn]

theorem hasPlaceholder_of_phl {a n b : Str} (hn : n ≠ [])
    (hup : ∀ ch ∈ n, isUpperA ch = true) :
    hasPlaceholder (a ++ phl n ++ b) = true := by
  induction a with
  | nil =>
    have he : ([] : Str) ++ phl n ++ b = '{' :: '{' :: (n ++ '}' :: '}' :: b) := by
      simp [phl]
    rw [he, hasPlaceholder_cons]
    have hpa : placeAt ('{' :: '{' :: (n ++ '}' :: '}' :: b)) = true := placeAt_phl hn hup
    simp [hpa]
  | cons c a' ih =>
    have he : (c :: a') ++ phl n ++ b = c :: (a' ++ phl n ++ b) := by simp
    rw [he, hasPlaceholder_cons, ih]
    simp

theorem placeAt_inv {s : Str} (h : placeAt s = true) :
    ∃ n r, s = phl n ++ r ∧ n ≠ [] ∧ ∀ ch ∈ n, isUpperA ch = true := by
  unfold placeAt at h
  split at h
  next rest =>
    simp only [Bool.and_eq_true, decide_eq_true_eq] at h
    obtain ⟨hne, hm⟩ := h
    have hspec := upSpan_spec rest
    split at hm
    next r2 hr2 =>
      refine ⟨(upSpan rest).1, r2, ?_, hne, hspec.2⟩
      have hrest : rest = (upSpan rest).1 ++ '}' :: '}' :: r2 := by
        conv_lhs => rw [hspec.1]
        rw [hr2]
      conv_lhs => rw [hrest]
      simp [phl]
    next => simp at hm
  next => simp at h

theorem hasPlaceholder_decomp {s : Str} (h : hasPlaceholder s = true) :
    ∃ a n b, s = a ++ phl n ++ b ∧ n ≠ [] ∧ ∀ ch ∈ n, isUpperA ch = true := by
  induction s with
  | nil => simp [hasPlaceholder] at h
  | cons c rest ih =>
    rw [hasPlaceholder_cons, Bool.or_eq_true] at h
    rcases h with h | h
    · obtain ⟨n, r, hs, hne, hup⟩ := placeAt_inv h
      exact ⟨[], n, r, by simpa using hs, hne, hup⟩
    · obtain ⟨a, n, b, hs, hne, hup⟩ := ih h
      exact ⟨c :: a, n, b, by simp [hs], hne, hup⟩

/-- `{{[A-Z]+}}` matches the text iff the text literally contains `{{NAME}}`
for some nonempty all-uppercase name. -/
theorem hasPlaceholder_iff (s : Str) :
    hasPlaceholder s = true ↔
      ∃ a n b, s = a ++ phl n ++ b ∧ n ≠ [] ∧ ∀ ch ∈ n, isUpperA ch = true := by
  constructor
  · exact hasPlaceholder_decomp
  · rintro ⟨a, n, b, hs, hne, hup⟩
    rw [hs]
    exact hasPlaceholder_of_phl hne hup

/-! ## The glob-token scanner, characterized -/

theorem isWordC_star : isWordC '*' = false := by decide

theorem fgt_nil (run : Str) : fgt run [] = [] := by
  rw [fgt.eq_def]

theorem fgt_no_star {x : Str} (hx : '*' ∉ x) (run : Str) : fgt run x = [] := by
  induction x generalizing run with
  | nil => exact fgt_nil run
  | cons c rest ih =>
    have hc : ¬ c = '*' := fun h => hx (by simp [h])
    have hrest : '*' ∉ rest := fun h => hx (by simp [h])
    rw [fgt.eq_def]
    by_cases hw : isWordC c = true
    · simp [hc, hw, ih hrest]
    · simp [hc, hw, ih hrest]

theorem fgt_skip {x : Str} (hx : '*' ∉ x) :
    ∀ (run rest : Str), fgt run (x ++ rest) = fgt (runAcc run x) rest := by
  induction x with
  | nil => intro run rest; rfl
  | cons c x' ih =>
    intro run rest
    have hc : ¬ c = '*' := fun h => hx (by simp [h])
    have hx' : '*' ∉ x' := fun h => hx (by simp [h])
    rw [List.cons_append, fgt.eq_def]
    by_cases hw : isWordC c = true
    · simp [hc, hw, ih hx', runAcc]
    · simp [hc, hw, ih hx', runAcc]

theorem runAcc_all_word {x : Str} (hx : ∀ ch ∈ x, isWordC ch = true) (run : Str) :
    runAcc run x = x.reverse ++ run := by
  induction x generalizing run with
  | nil => simp [runAcc]
  | cons c x' ih =>
    have hc : isWordC c = true := hx c (by simp)
    have ih' := ih (fun ch hch => hx ch (by simp [hch])) (c :: run)
    simp [runAcc, hc, ih']

theorem wordSpan_append_all {u v : Str} (hu : ∀ ch ∈ u, isWordC ch = true)
    (hv : ∀ d, v.head? = some d → isWordC d = false) : wordSpan (u ++ v) = (u, v) := by
  induction u with
  | nil =>
    cases v with
    | nil => simp [wordSpan]
    | cons d v' => simp [wordSpan, hv d rfl]
  | cons c u' ih =>
    have hc : isWordC c = true := hu c (by simp)
    have ih' := ih fun ch hch => hu ch (by simp [hch])
    simp [wordSpan, hc, ih']

/-- A text consisting of a star-free left part with no pending word run, a
single glob token, and a star-free right part that does not start with a
word character, is scanned to exactly that one token. -/
theorem findGlobTokens_single (a w1 w2 b : Str)
    (hsa : '*' ∉ a) (hacc : runAcc [] a = [])
    (hw1 : ∀ ch ∈ w1, isWordC ch = true) (hw2 : ∀ ch ∈ w2, isWordC ch = true)
    (hsb : '*' ∉ b) (hbh : ∀ d, b.head? = some d → isWordC d = false) :
    findGlobTokens (a ++ (w1 ++ '*' :: w2) ++ b) = [w1 ++ '*' :: w2] := by
  have hsw1 : '*' ∉ w1 := fun h => by simpa [isWordC_star] using hw1 '*' h
  have he : a ++ (w1 ++ '*' :: w2) ++ b = a ++ (w1 ++ '*' :: (w2 ++ b)) := by simp
  have hws : wordSpan (w2 ++ b) = (w2, b) := wordSpan_append_all hw2 hbh
  rw [findGlobTokens, he, fgt_skip hsa, hacc, fgt_skip hsw1, runAcc_all_word hw1]
  rw [fgt.eq_def]
  simp [hws, fgt_no_star hsb]

/-! ## `strings.Replace`, characterized -/

theorem raGo_nil (t v : Str) : raGo t v [] = [] := by
  rw [raGo.eq_def]

theorem isPre_self_append (t rest : Str) : isPre t (t ++ rest) = true := by
  induction t with
  | nil => rfl
  | cons c ts ih => simp [isPre, ih]

theorem isPre_take {t u : Str} (h : isPre t u = true) : u.take t.length = t := by
  induction t generalizing u with
  | nil => simp
  | cons c ts ih =>
    cases u with
    | nil => simp [isPre] at h
    | cons d us =>
      simp only [isPre, Bool.and_eq_true, decide_eq_true_eq] at h
      simp [h.1.symm, ih h.2]

theorem raGo_append_no (t v x rest : Str)
    (h : ∀ i, i < x.length → isPre t (x.drop i ++ rest) = false) :
    raGo t v (x ++ rest) = x ++ raGo t v rest := by
  induction x with
  | nil => simp
  | cons c x' ih =>
    have h0 : isPre t (c :: (x' ++ rest)) = false := by simpa using h 0 (by simp)
    rw [List.cons_append, raGo.eq_def]
    simp only [h0, Bool.false_eq_true, if_false]
    rw [ih fun i hi => by simpa using h (i + 1) (by simp only [List.length_cons]; omega)]
    simp

theorem raGo_head_match (t v rest : Str) (ht : t ≠ []) :
    raGo t v (t ++ rest) = v ++ raGo t v rest := by
  cases t with
  | nil => cases ht rfl
  | cons c ts =>
    have hpre : isPre (c :: ts) (c :: (ts ++ rest)) = true := by
      have := isPre_self_append (c :: ts) rest
      simpa using this
    rw [List.cons_append, raGo.eq_def]
    simp only [hpre, if_true]
    have hd : List.drop ((c :: ts).length - 1) (ts ++ rest) = rest := by
      simp only [List.length_cons, Nat.add_sub_cancel]
      have : ts.length = ts.length := rfl
      exact List.drop_left ts rest
    rw [hd]

theorem raGo_id (t v x : Str) (h : ∀ i, i < x.length → isPre t (x.drop i) = false) :
    raGo t v x = x := by
  have := raGo_append_no t v x [] (fun i hi => by simpa using h i hi)
  simpa [raGo_nil] using this

/-- A glob token (word run, `*`, word run) cannot match starting strictly
inside a star-free stretch that precedes a copy of the token: the token's
`*` would land on a star-free or word character. -/
theorem isPre_star_false {w1 w2 : Str} (hw1 : ∀ ch ∈ w1, isWordC ch = true)
    {u : Str} (hu : '*' ∉ u) (hune : u ≠ []) (rest : Str) :
    isPre (w1 ++ '*' :: w2) (u ++ ((w1 ++ '*' :: w2) ++ rest)) = false := by
  by_contra hpre
  rw [Bool.not_eq_false] at hpre
  have htake := isPre_take hpre
  have hkt : w1.length < (w1 ++ '*' :: w2).length := by simp
  have htstar : (w1 ++ '*' :: w2)[w1.length] = '*' := by
    rw [List.getElem_append_right (Nat.le_refl _)]
    simp
  have hlen : (w1 ++ '*' :: w2).length ≤ (u ++ ((w1 ++ '*' :: w2) ++ rest)).length := by
    simp only [List.length_append, List.length_cons]
    omega
  have hbigk : w1.length < (u ++ ((w1 ++ '*' :: w2) ++ rest)).length :=
    Nat.lt_of_lt_of_le hkt hlen
  have hstar : (u ++ ((w1 ++ '*' :: w2) ++ rest))[w1.length] = '*' := by
    have htkk : w1.length <
        ((u ++ ((w1 ++ '*' :: w2) ++ rest)).take (w1 ++ '*' :: w2).length).length := by
      rw [htake]
      exact hkt
    have h1 := List.getElem_of_eq htake htkk
    rw [List.getElem_take] at h1
    rw [h1, htstar]
  by_cases hcase : w1.length < u.length
  · rw [List.getElem_append_left hcase] at hstar
    exact hu (hstar ▸ List.getElem_mem hcase)
  · push_neg at hcase
    have hne1 : 1 ≤ u.length := by
      cases hu2 : u with
      | nil => exact absurd hu2 hune
      | cons d u' => simp
    rw [List.getElem_append_right hcase] at hstar
    have hj2 : w1.length - u.length < (w1 ++ '*' :: w2).length := by
      simp only [List.length_append, List.length_cons]
      omega
    rw [List.getElem_append_left hj2] at hstar
    have hj3 : w1.length - u.length < w1.length := by omega
    rw [List.getElem_append_left hj3] at hstar
    have hmem := List.getElem_mem hj3
    rw [hstar] at hmem
    have := hw1 '*' hmem
    rw [isWordC_star] at this
    cases this

/-- Substituting a single-occurrence glob token: the star-free left and
right parts pass through and the token alone is replaced. -/
theorem replaceAll_star_single (a w1 w2 b v : Str)
    (hw1 : ∀ ch ∈ w1, isWordC ch = true) (hsa : '*' ∉ a) (hsb : '*' ∉ b) :
    replaceAll (a ++ (w1 ++ '*' :: w2) ++ b) (w1 ++ '*' :: w2) v = a ++ v ++ b := by
  have ht : ¬ (w1 ++ '*' :: w2) = ([] : Str) := by simp
  rw [replaceAll, if_neg ht]
  have he : a ++ (w1 ++ '*' :: w2) ++ b = a ++ ((w1 ++ '*' :: w2) ++ b) := by simp
  have hcond : ∀ i, i < a.length →
      isPre (w1 ++ '*' :: w2) (a.drop i ++ ((w1 ++ '*' :: w2) ++ b)) = false := by
    intro i hi
    apply isPre_star_false hw1
    · exact fun h => hsa (List.drop_subset _ _ h)
    · intro hnil
      have hld : (a.drop i).length = a.length - i := List.length_drop ..
      rw [hnil] at hld
      simp at hld
      omega
  rw [he, raGo_append_no _ _ _ _ hcond, raGo_head_match _ _ _ ht, raGo_id]
  · simp
  · intro i hi
    by_contra hpre
    rw [Bool.not_eq_false] at hpre
    have htk := isPre_take hpre
    have hsm : '*' ∈ (b.drop i).take (w1 ++ '*' :: w2).length := by
      rw [htk]
      simp
    exact hsb (List.drop_subset _ _ (List.take_subset _ _ hsm))

/-- A placeholder `{{NAME}}` cannot match at any position of a brace-free
stretch, whatever follows it. -/
theorem raGo_skip_nobrace (n v x rest : Str) (hx : '{' ∉ x) :
    raGo (phl n) v (x ++ rest) = x ++ raGo (phl n) v rest := by
  apply raGo_append_no
  intro i hi
  have hd : x.drop i = x[i] :: x.drop (i + 1) := List.drop_eq_getElem_cons hi
  rw [hd]
  have hne : ¬ ('{' : Char) = x[i] := fun h => hx (h ▸ List.getElem_mem hi)
  simp [phl, isPre, hne]

/-- Substituting a parameter whose placeholder occurs twice in a brace-free
context replaces both occurrences (`strings.Replace` with count `-1`). -/
theorem replaceAll_phl_two (a b d n v : Str)
    (ha : '{' ∉ a) (hb : '{' ∉ b) (hd : '{' ∉ d) :
    replaceAll (a ++ phl n ++ b ++ phl n ++ d) (phl n) v = a ++ v ++ b ++ v ++ d := by
  have ht : ¬ phl n = ([] : Str) := by simp [phl]
  rw [replaceAll, if_neg ht]
  have he : a ++ phl n ++ b ++ phl n ++ d = a ++ (phl n ++ (b ++ (phl n ++ d))) := by simp
  rw [he, raGo_skip_nobrace _ _ _ _ ha, raGo_head_match _ _ _ ht,
    raGo_skip_nobrace _ _ _ _ hb, raGo_head_match _ _ _ ht, raGo_id]
  · simp
  · intro i hi
    have hdd : d.drop i = d[i] :: d.drop (i + 1) := List.drop_eq_getElem_cons hi
    rw [hdd]
    have hne : ¬ ('{' : Char) = d[i] := fun h => hd (h ▸ List.getElem_mem hi)
    simp [phl, isPre, hne]

/-! ## The claims -/

/-- C1: the claim says every `nextID` call returns a value strictly greater
than all previously returned ones and that no value is returned twice, even
under concurrent callers.  The code increments under the lock but performs
the `return sessionID` read after unlocking, so in the valid interleaving
inc₀, inc₁, read₀, read₁ of two concurrent calls both calls return 2 — the
same identifier is issued twice, contradicting the claim. -/
theorem c1_nextid_race_duplicate :
    validSched 2 [Ev.inc 0, Ev.inc 1, Ev.read 0, Ev.read 1] ∧
      runSched 0 [Ev.inc 0, Ev.inc 1, Ev.read 0, Ev.read 1] = [(0, 2), (1, 2)] ∧
      ¬ ((runSched 0 [Ev.inc 0, Ev.inc 1, Ev.read 0, Ev.read 1]).map Prod.snd).Nodup := by
  refine ⟨by decide, rfl, by decide⟩

/-- C2: the claim says an asynchronous invocation delivers exactly one
result on the channel.  In a fully successful asynchronous run the deferred
send fires when `Runner` returns and `finisher` sends again on completion:
two deliveries for one invocation. -/
theorem c2_async_double_delivery : (runner osOk lsAsync []).sends.length = 2 := by
  simp [runner, osOk, lsAsync, render, renderText, optional, optionalLoop, idxOf,
    hasPlaceholder, findGlobTokens, fgt, globGo, runnerSpawn, finisher]

/-- C3 (counterexample): the claim says any template with more `]` than `[`
fails with the syntax error; but the template `]` renders successfully with
no error, because the loop exits as soon as no `[` is left and a stray `]`
is never examined. -/
theorem c3_stray_bracket_no_error : optional envId fsNone [']'] = ([']'], none) := by
  simp [optional, optionalLoop, idxOf, hasPlaceholder, placeAt, envId, fsNone,
    findGlobTokens, fgt, isWordC, globGo]

/-- C3 (amended): rendering fails with the syntax error exactly when an
unmatched `[` is found — a `[` is present and either no `]` exists or the
first `]` precedes the first `[`; a surplus `]` with no `[` in the text is
not an error. -/
theorem c3_unmatched_open_syntax_error (env : Str → Str) (fs : Str → Option (List Str))
    (s : Str) (st : Nat) (h1 : idxOf '[' s = some st)
    (h2 : idxOf ']' s = none ∨ ∃ en, idxOf ']' s = some en ∧ en < st) :
    optional env fs s = (s, some RErr.syn) := by
  have hl : optionalLoop s = (s, some RErr.syn) := by
    rcases h2 with h2 | ⟨en, h2, hlt⟩
    · exact optionalLoop_syn_noclose h1 h2
    · exact optionalLoop_syn_before h1 h2 hlt
  simp [optional, hl]

/-- C3 (witness): the template `][` fails with the syntax error. -/
theorem c3_unmatched_open_syntax_error_witness :
    optional envId fsNone [']', '['] = ([']', '['], some RErr.syn) :=
  c3_unmatched_open_syntax_error envId fsNone [']', '['] 1 (by decide)
    (Or.inr ⟨0, by decide, by decide⟩)

/-- C5: for the leftmost bracket pair (the first `[` and the first `]`,
with the `]` after the `[`), one resolution step deletes the whole
bracketed fragment when an unresolved uppercase placeholder remains
anywhere in the current text, and otherwise drops just the two brackets,
keeping the interior. -/
theorem c5_leftmost_fragment_step (a b c : Str) (ha1 : '[' ∉ a) (ha2 : ']' ∉ a)
    (hb : ']' ∉ b) :
    optionalLoop (a ++ '[' :: b ++ ']' :: c) =
      optionalLoop
        (if hasPlaceholder (a ++ '[' :: b ++ ']' :: c) then a ++ c else a ++ b ++ c) :=
  optionalLoop_step a b c ha1 ha2 hb

/-- C5 (witness): one step on `x[y]z` with no placeholder present keeps the
interior `y`. -/
theorem c5_leftmost_fragment_step_witness :
    optionalLoop (['x'] ++ '[' :: ['y'] ++ ']' :: ['z']) =
      optionalLoop
        (if hasPlaceholder (['x'] ++ '[' :: ['y'] ++ ']' :: ['z']) then ['x'] ++ ['z']
         else ['x'] ++ ['y'] ++ ['z']) :=
  c5_leftmost_fragment_step ['x'] ['y'] ['z'] (by decide) (by decide) (by decide)

/-- C4: a required placeholder with no supplied parameter makes rendering
fail with the incomplete-parameters error, unless the placeholder lies in
an optional bracket fragment, in which case the fragment is dropped and
rendering succeeds.  Stated as: (1) any bracket-free text still containing
a placeholder renders to the incomplete-parameters error; (2) the concrete
template `-l {{WHAT}} [{{EVER}}]` with only `(EVER, "-r")` fails with the
incomplete-parameters error; (3) a text whose only placeholder lies inside
its single bracket fragment renders successfully with the fragment
dropped. -/
theorem c4_missing_required_incomplete :
    (∀ (env : Str → Str) (fs : Str → Option (List Str)) (s : Str), '[' ∉ s →
      hasPlaceholder s = true → optional env fs s = (s, some RErr.incomplete)) ∧
    (render envId fsNone cmd125 [⟨['E', 'V', 'E', 'R'], ['-', 'r']⟩]).2 =
      some RErr.incomplete ∧
    (∀ (env : Str → Str) (fs : Str → Option (List Str)) (a b1 n b2 d : Str),
      '[' ∉ a → ']' ∉ a → ']' ∉ b1 → ']' ∉ n → ']' ∉ b2 → '[' ∉ d → ']' ∉ d →
      n ≠ [] → (∀ ch ∈ n, isUpperA ch = true) →
      hasPlaceholder (a ++ d) = false → env (a ++ d) = a ++ d →
      '*' ∉ a → '*' ∉ d →
      optional env fs (a ++ '[' :: (b1 ++ phl n ++ b2) ++ ']' :: d) = (a ++ d, none)) := by
  refine ⟨?_, ?_, ?_⟩
  · intro env fs s hbr hp
    have hl : optionalLoop s = (s, none) := optionalLoop_none (idxOf_eq_none_of_not_mem hbr)
    simp [optional, hl, hp]
  · simp [render, renderText, subst1, cmd125, phl, replaceAll, raGo, isPre, optional,
      optionalLoop, idxOf, hasPlaceholder, placeAt, upSpan, isUpperA, envId, fsNone,
      findGlobTokens, fgt, isWordC, globGo]
  · intro env fs a b1 n b2 d ha1 ha2 hb1 hn2 hb2 hd1 hd2 hn hup hacd henv hsa hsd
    have hbB : ']' ∉ b1 ++ phl n ++ b2 := by
      simp only [List.mem_append, not_or, phl, List.mem_cons]
      refine ⟨⟨hb1, ?_⟩, hb2⟩
      simp only [List.mem_append, List.mem_cons, List.not_mem_nil]
      push_neg
      refine ⟨by decide, by decide, hn2, by decide, by decide, by simp⟩
    have hstep := optionalLoop_step a (b1 ++ phl n ++ b2) d ha1 ha2 hbB
    have hpl : hasPlaceholder (a ++ '[' :: (b1 ++ phl n ++ b2) ++ ']' :: d) = true := by
      apply (hasPlaceholder_iff _).mpr
      exact ⟨a ++ '[' :: b1, n, b2 ++ ']' :: d, by simp, hn, hup⟩
    rw [hpl] at hstep
    simp only [if_true] at hstep
    have hload : optionalLoop (a ++ d) = (a ++ d, none) := by
      apply optionalLoop_none
      apply idxOf_eq_none_of_not_mem
      simp only [List.mem_append, not_or]
      exact ⟨ha1, hd1⟩
    have hl : optionalLoop (a ++ '[' :: (b1 ++ phl n ++ b2) ++ ']' :: d) = (a ++ d, none) :=
      hstep.trans hload
    have hstars : '*' ∉ a ++ d := by
      simp only [List.mem_append, not_or]
      exact ⟨hsa, hsd⟩
    unfold optional
    rw [hl]
    simp [hacd, henv, fgt_no_star hstars, findGlobTokens, globGo]

/-- C4 (witness): instantiating part (3) at `-l [{{EVER}}]` with no
parameters: the fragment is dropped and rendering succeeds. -/
theorem c4_missing_required_incomplete_witness :
    optional envId fsNone
        (['-', 'l', ' '] ++ '[' :: ([] ++ phl ['E', 'V', 'E', 'R'] ++ []) ++ ']' :: []) =
      (['-', 'l', ' '] ++ [], none) :=
  c4_missing_required_incomplete.2.2 envId fsNone ['-', 'l', ' '] [] ['E', 'V', 'E', 'R'] [] []
    (by decide) (by decide) (by decide) (by decide) (by decide) (by decide) (by decide)
    (by decide) (by decide) (by decide) rfl (by decide) (by decide)

/-- C10: only `{{` + uppercase letters + `}}` is a placeholder: (1) the
matcher accepts a text iff it literally contains such a token; (2) a text
with no such token and no brackets or glob stars renders successfully and
verbatim, whatever other `{{...}}` text it contains; (3) concretely,
`[-l] {{foo}}` renders to `-l {{foo}}` with no error: the lowercase
`{{foo}}` neither triggers fragment deletion nor the incomplete error, and
survives verbatim. -/
theorem c10_lowercase_placeholder_inert :
    (∀ s : Str, hasPlaceholder s = true ↔
      ∃ a n b, s = a ++ phl n ++ b ∧ n ≠ [] ∧ ∀ ch ∈ n, isUpperA ch = true) ∧
    (∀ (env : Str → Str) (fs : Str → Option (List Str)) (s : Str), '[' ∉ s →
      hasPlaceholder s = false → env s = s → '*' ∉ s →
      optional env fs s = (s, none)) ∧
    (optional envId fsNone
        ['[', '-', 'l', ']', ' ', '{', '{', 'f', 'o', 'o', '}', '}'] =
      (['-', 'l', ' ', '{', '{', 'f', 'o', 'o', '}', '}'], none)) := by
  refine ⟨hasPlaceholder_iff, ?_, ?_⟩
  · intro env fs s hbr hp henv hstar
    have hl : optionalLoop s = (s, none) := optionalLoop_none (idxOf_eq_none_of_not_mem hbr)
    simp [optional, hl, hp, henv, fgt_no_star hstar, findGlobTokens, globGo]
  · simp [optional, optionalLoop, idxOf, hasPlaceholder, placeAt, upSpan, isUpperA, envId,
      fsNone, findGlobTokens, fgt, isWordC, globGo]

/-- C10 (witness): instantiating part (2) at the bare text `{{foo}}`: it
renders successfully and verbatim. -/
theorem c10_lowercase_placeholder_inert_witness :
    optional envId fsNone (phl ['f', 'o', 'o']) = (phl ['f', 'o', 'o'], none) :=
  c10_lowercase_placeholder_inert.2.1 envId fsNone (phl ['f', 'o', 'o'])
    (by decide) (by decide) rfl (by decide)

/-- C6: a token of word characters, dots and hyphens around a `*` is
resolved as a filesystem glob once the text has passed bracket resolution
and the completeness check: if the filesystem reports no match, rendering
fails with the no-such-file error; if it reports matches, the token is
replaced by their space-joined list (the match list itself — its sorted
order — is supplied by the external glob primitive). -/
theorem c6_glob_expansion (env : Str → Str) (fs : Str → Option (List Str))
    (a w1 w2 b : Str)
    (hbr : '[' ∉ a ++ (w1 ++ '*' :: w2) ++ b)
    (hp : hasPlaceholder (a ++ (w1 ++ '*' :: w2) ++ b) = false)
    (henv : env (a ++ (w1 ++ '*' :: w2) ++ b) = a ++ (w1 ++ '*' :: w2) ++ b)
    (hw1 : ∀ ch ∈ w1, isWordC ch = true) (hw2 : ∀ ch ∈ w2, isWordC ch = true)
    (hsa : '*' ∉ a) (hsb : '*' ∉ b)
    (hacc : runAcc [] a = [])
    (hbh : ∀ d, b.head? = some d → isWordC d = false) :
    (fs (w1 ++ '*' :: w2) = some [] →
      optional env fs (a ++ (w1 ++ '*' :: w2) ++ b) =
        (a ++ (w1 ++ '*' :: w2) ++ b, some RErr.nofile)) ∧
    (∀ f files, fs (w1 ++ '*' :: w2) = some (f :: files) →
      optional env fs (a ++ (w1 ++ '*' :: w2) ++ b) =
        (a ++ joinSpace (f :: files) ++ b, none)) := by
  have hl : optionalLoop (a ++ (w1 ++ '*' :: w2) ++ b) =
      (a ++ (w1 ++ '*' :: w2) ++ b, none) :=
    optionalLoop_none (idxOf_eq_none_of_not_mem hbr)
  have htok := findGlobTokens_single a w1 w2 b hsa hacc hw1 hw2 hsb hbh
  constructor
  · intro hfs
    unfold optional
    rw [hl]
    simp only [hp, Bool.false_eq_true, if_false, henv]
    rw [htok]
    simp [globGo, hfs]
  · intro f files hfs
    have hrepl := replaceAll_star_single a w1 w2 b (joinSpace (f :: files)) hw1 hsa hsb
    unfold optional
    rw [hl]
    simp only [hp, Bool.false_eq_true, if_false, henv]
    rw [htok]
    simp only [globGo, hfs]
    rw [hrepl]

/-- C6 (witness): `-l *.go` against a filesystem holding `a.go` and `b.go`
renders to `-l a.go b.go`. -/
theorem c6_glob_expansion_witness :
    optional envId fsGo (['-', 'l', ' '] ++ ([] ++ '*' :: ['.', 'g', 'o']) ++ []) =
      (['-', 'l', ' '] ++
        joinSpace [['a', '.', 'g', 'o'], ['b', '.', 'g', 'o']] ++ [], none) :=
  (c6_glob_expansion envId fsGo ['-', 'l', ' '] [] ['.', 'g', 'o'] []
      (by decide) (by decide) rfl (by decide) (by decide) (by decide) (by decide)
      (by decide) (fun d hd => by simp at hd)).2
    ['a', '.', 'g', 'o'] [['b', '.', 'g', 'o']] (by decide)

/-- C7: a synchronous invocation whose child starts successfully and exits
with a nonzero status yields a result record whose exit-code field equals
that status, and a nil error: the nonzero exit is not itself an error. -/
theorem c7_nonzero_exit_not_error (os : OSEnv) (c : Command) (ps : List Param)
    (path text outS errS : Str)
    (hasync : c.async = false)
    (hlook : os.lookPath c.path = some path)
    (hrender : render os.envExpand os.fsGlob c ps = (text, none))
    (hpipes : os.pipesOk = (true, true))
    (huser : c.user = [])
    (hstart : os.startOk = true)
    (hout : os.readOut = some outS)
    (herr : os.readErr = some errS)
    (hrc : os.waitRes.rc ≠ 0) :
    ((run os c ps).1.map Runtime.rc = some os.waitRes.rc) ∧ (run os c ps).2 = none := by
  simp [run, runner, hlook, hrender, hpipes, huser, runnerSpawn, hasync, hstart,
    finisher, hout, herr]

/-- C7 (witness): with the all-success oracle whose child exits 23, `Run`
returns exit code 23 and no error. -/
theorem c7_nonzero_exit_not_error_witness :
    ((run osOk lsSync []).1.map Runtime.rc = some 23) ∧ (run osOk lsSync []).2 = none := by
  have h := c7_nonzero_exit_not_error osOk lsSync []
    ['/', 'b', 'i', 'n', '/', 'l', 's'] [] [] ['r', 'o', 'c', 'k'] rfl rfl
    (by simp [render, renderText, optional, optionalLoop, idxOf, hasPlaceholder,
      findGlobTokens, fgt, globGo, osOk, lsSync])
    rfl rfl rfl rfl rfl (by decide)
  simpa [osOk] using h

/-- C8: named substitution replaces every occurrence of `{{NAME}}` (shown
for two occurrences in a brace-free context), and empty-name parameters
append a space and the value each, accumulating in supplied order. -/
theorem c8_render_substitution :
    (∀ a b d n v : Str, n ≠ [] → '{' ∉ a → '{' ∉ b → '{' ∉ d →
      renderText (a ++ phl n ++ b ++ phl n ++ d) [⟨n, v⟩] = a ++ v ++ b ++ v ++ d) ∧
    (∀ text v1 v2 : Str,
      renderText text [⟨[], v1⟩, ⟨[], v2⟩] = (text ++ ' ' :: v1) ++ ' ' :: v2) := by
  constructor
  · intro a b d n v hn ha hb hd
    have hstep : renderText (a ++ phl n ++ b ++ phl n ++ d) [⟨n, v⟩] =
        replaceAll (a ++ phl n ++ b ++ phl n ++ d) (phl n) v := by
      simp [renderText, subst1, hn]
    rw [hstep]
    exact replaceAll_phl_two a b d n v ha hb hd
  · intro text v1 v2
    simp [renderText, subst1]

/-- C8 (witness): substituting `(A, Q)` in `x{{A}}y{{A}}z` replaces both
occurrences. -/
theorem c8_render_substitution_witness :
    renderText (['x'] ++ phl ['A'] ++ ['y'] ++ phl ['A'] ++ ['z']) [⟨['A'], ['Q']⟩] =
      ['x'] ++ ['Q'] ++ ['y'] ++ ['Q'] ++ ['z'] :=
  c8_render_substitution.1 ['x'] ['y'] ['z'] ['A'] ['Q']
    (by decide) (by decide) (by decide) (by decide)

/-- C9: the argument vector handed to the spawned process is the rendered
command line split on whitespace runs by `strings.Fields`; consequently a
parameter value containing a space becomes several distinct arguments,
whitespace runs collapse, and no quoting can protect a space (shown
concretely: value `a b` for the single placeholder `{{X}}` produces the
three-element vector `[path, a, b]`, and a doubled space collapses). -/
theorem c9_argv_whitespace_split :
    (∀ (os : OSEnv) (c : Command) (ps : List Param) (path text : Str),
      os.lookPath c.path = some path →
      render os.envExpand os.fsGlob c ps = (text, none) →
      os.pipesOk = (true, true) → c.user = [] → os.startOk = true → text ≠ [] →
      (runner os c ps).argv = some (goFields (path ++ ' ' :: text))) ∧
    ((runner osOk echoX [⟨['X'], ['a', ' ', 'b']⟩]).argv =
      some [['/', 'b', 'i', 'n', '/', 'l', 's'], ['a'], ['b']]) ∧
    goFields [' ', 'a', ' ', ' ', 'b', ' '] = [['a'], ['b']] := by
  refine ⟨?_, ?_, by simp [goFields, gfGo, isSpaceC]⟩
  · intro os c ps path text hlook hrender hpipes huser hstart htext
    cases hasync : c.async with
    | true =>
      simp [runner, hlook, hrender, hpipes, huser, runnerSpawn, hasync, hstart, htext]
    | false =>
      simp [runner, hlook, hrender, hpipes, huser, runnerSpawn, hasync, hstart, htext]
  · simp [runner, osOk, echoX, render, renderText, subst1, phl, replaceAll, raGo, isPre,
      optional, optionalLoop, idxOf, hasPlaceholder, placeAt, upSpan, isUpperA,
      findGlobTokens, fgt, isWordC, globGo, runnerSpawn, finisher, goFields, gfGo, isSpaceC]

/-- C9 (witness): instantiating part (1) with the all-success oracle and a
bare `-l` template: the vector is the whitespace-split command line. -/
theorem c9_argv_whitespace_split_witness :
    (runner osOk { path := ['l', 's'], params := ['-', 'l'] } []).argv =
      some (goFields (['/', 'b', 'i', 'n', '/', 'l', 's'] ++ ' ' :: ['-', 'l'])) :=
  c9_argv_whitespace_split.1 osOk { path := ['l', 's'], params := ['-', 'l'] } []
    ['/', 'b', 'i', 'n', '/', 'l', 's'] ['-', 'l'] rfl
    (by simp [render, renderText, optional, optionalLoop, idxOf, hasPlaceholder, placeAt,
      upSpan, isUpperA, findGlobTokens, fgt, isWordC, globGo, osOk])
    rfl rfl rfl (by decide)

end Cmdr
